import Mathlib

/-!
# Diddlydoo: event and attendance routes

A shallow embedding of the request handlers of `src/server/routes/events.mjs`
and `src/server/routes/attendance.mjs`.  The document store is the list of
event records held in `db.data`; a handler is a function from the loaded
collection and the request to the answered status and the collection as it
stands on disk afterwards (a handler that answers before `db.write()` leaves
the collection as it was loaded).
-/

namespace Diddlydoo

/-! ## Data model -/

/-- One entry of an attendee's `dates` array: the day and the answer given. -/
structure Selection where
  date : String
  available : Bool
deriving DecidableEq, Repr

/-- Element of an event's `attendees` array; also the shape of the validated
body of the two `attend` routes, since the stored record is
`{...req.body, dates: ...}`. -/
structure Attendee where
  name : String
  dates : List Selection
deriving DecidableEq, Repr

/-- Record of the stored collection. -/
structure Event where
  id : String
  name : String
  author : String
  description : Option String
  dates : List String
  attendees : List Attendee
deriving DecidableEq, Repr

/-- Contents of `db.data`. -/
abbrev Store := List Event

/-- Answer of a mutating handler: the HTTP status sent and the collection
persisted once the handler has returned. -/
structure Result where
  status : Nat
  db : Store
deriving DecidableEq, Repr

/-! ## `events.mjs` -/

/-- `DELETE /events/delete/:_id/:date` (events.mjs 15-54).  The index is looked
up with `findIndex`; on a hit the event's `dates` and every attendee's `dates`
are filtered in place and the collection is written. -/
def deleteDate (db : Store) (_id date : String) : Result :=
  match db.findIdx? (fun event => event.id == _id) with
  | none => ⟨404, db⟩
  | some eventIndex =>
    ⟨200, db.modify (fun event =>
      { event with
        dates := event.dates.filter (fun d => d != date)
        attendees := event.attendees.map (fun attendee =>
          { attendee with dates := attendee.dates.filter (fun d => d.date != date) }) })
      eventIndex⟩

/-- `GET /events` without an id (events.mjs 59-66): every stored event,
remapped.  `remapData` lives in `helpers/functions.mjs` and is a parameter. -/
def listEvents {ρ : Type} (remapData : Event → ρ) (db : Store) : List ρ :=
  db.map remapData

/-- Modelled from the spec: `initEvent` of `helpers/functions.mjs`, which is
not part of the sources at hand.  Per the design of the create handler it
assigns the freshly generated id, normalizes the supplied dates by stripping
the time of day and stores an empty attendee list. -/
def initEvent (stripTime : String → String) (freshId : String)
    (name author : String) (description : Option String) (dates : List String) : Event :=
  { id := freshId, name := name, author := author, description := description,
    dates := dates.map stripTime, attendees := [] }

/-- Validated body of `POST /events`. -/
structure CreateEventBody where
  name : String
  author : String
  description : Option String
  dates : List String
deriving DecidableEq, Repr

/-- `POST /events` (events.mjs 70-78): the new event is put in front of the
collection with `unshift` and the collection is written. -/
def createEvent (stripTime : String → String) (freshId : String)
    (db : Store) (body : CreateEventBody) : Result :=
  let newEvent := initEvent stripTime freshId body.name body.author body.description body.dates
  ⟨200, newEvent :: db⟩

/-- `POST /events/:_id/add_dates` (events.mjs 97-111).  `elem` is `req._elem`,
the index left by the `getElem` middleware; `none` stands for the exception
thrown when `db.data[req._elem]` is undefined.  `stripTime` lives in
`helpers/functions.mjs` and is a parameter. -/
def addDates (stripTime : String → String) (db : Store) (elem : Nat)
    (dates : List String) : Option Result :=
  match db[elem]? with
  | none => none
  | some event =>
    let existingDates := event.dates
    if dates.any (fun date => existingDates.contains (stripTime date)) then
      some ⟨400, db⟩
    else
      some ⟨200, db.set elem { event with dates := event.dates ++ dates.map stripTime }⟩

/-! ## `attendance.mjs` -/

/-- The record `{...req.body, dates: req.body.dates.filter(...)}` built by both
`attend` routes (attendance.mjs 11-14 and 32-35). -/
def buildAttendee (event : Event) (body : Attendee) : Attendee :=
  { body with dates := body.dates.filter (fun date => event.dates.contains date.date) }

/-- `POST /events/:_id/attend` (attendance.mjs 9-23). -/
def addAttendee (db : Store) (elem : Nat) (body : Attendee) : Option Result :=
  match db[elem]? with
  | none => none
  | some event =>
    let attendee := buildAttendee event body
    if (event.attendees.find? (fun a => a.name == attendee.name)).isSome then
      some ⟨400, db⟩
    else
      some ⟨200, db.set elem { event with attendees := event.attendees ++ [attendee] }⟩

/-- `PATCH /events/:_id/attend` (attendance.mjs 25-41). -/
def updateAttendee (db : Store) (elem : Nat) (body : Attendee) : Option Result :=
  match db[elem]? with
  | none => none
  | some event =>
    match event.attendees.findIdx? (fun a => a.name == body.name) with
    | none => some ⟨404, db⟩
    | some _attendee =>
      let attendee := buildAttendee event body
      some ⟨200, db.set elem { event with attendees := event.attendees.set _attendee attendee }⟩

/-- `DELETE /events/:_id/attendees/:attendeeName` (attendance.mjs 87-105). -/
def removeAttendee (db : Store) (elem : Nat) (attendeeName : String) : Result :=
  match db[elem]? with
  | none => ⟨404, db⟩
  | some event =>
    let initialLength := event.attendees.length
    let attendees := event.attendees.filter (fun a => a.name != attendeeName)
    if attendees.length == initialLength then
      ⟨404, db⟩
    else
      ⟨200, db.set elem { event with attendees := attendees }⟩

/-- Element of the `events` array of one entry of the attendee view. -/
structure AttendeeEvent where
  id : String
  name : String
  dates : List Selection
deriving DecidableEq, Repr

/-- Entry of the array built by `GET /attendees`. -/
structure AttendeeEntry where
  name : String
  events : List AttendeeEvent
deriving DecidableEq, Repr

/-- Body of the inner loop of `GET /attendees` (attendance.mjs 49-68): `none`
stands for the exception thrown when `event.attendees.find(...)` is
undefined. -/
def viewStep (event : Event) (ret : List AttendeeEntry) (attendee : Attendee) :
    Option (List AttendeeEntry) :=
  match ret.findIdx? (fun f => f.name == attendee.name) with
  | none =>
    match event.attendees.find? (fun f => f.name == attendee.name) with
    | none => none
    | some found =>
      some (ret ++ [{ name := attendee.name,
                      events := [{ id := event.id, name := event.name, dates := found.dates }] }])
  | some _attendee =>
    match event.attendees.find? (fun f => f.name == attendee.name) with
    | none => none
    | some found =>
      some (ret.modify (fun entry =>
        { entry with events := entry.events ++
            [{ id := event.id, name := event.name, dates := found.dates }] }) _attendee)

/-- The two nested loops of `GET /attendees` (attendance.mjs 45-70). -/
def buildView (db : Store) : Option (List AttendeeEntry) :=
  db.foldlM (fun ret event => event.attendees.foldlM (viewStep event) ret) []

/-- What `GET /attendees/:_name?` sends. -/
inductive ViewResponse where
  | all (ret : List AttendeeEntry)
  | one (entry : AttendeeEntry)
  | notFound
deriving DecidableEq, Repr

/-- `GET /attendees/:_name?` (attendance.mjs 43-84). -/
def getAttendees (db : Store) (_name : Option String) : Option ViewResponse :=
  match buildView db with
  | none => none
  | some ret =>
    match _name with
    | some n =>
      match ret.find? (fun f => f.name == n) with
      | none => some .notFound
      | some filteredRet => some (.one filteredRet)
    | none => some (.all ret)

/-- HTTP status of a view response. -/
def ViewResponse.status : ViewResponse → Nat
  | .all _ => 200
  | .one _ => 200
  | .notFound => 404

/-- The collection on disk after a request: what the handler persisted, or the
loaded collection when the handler threw before writing. -/
def persisted (db : Store) : Option Result → Store
  | some r => r.db
  | none => db

/-- No event of the collection has two attendees with the same name. -/
def UniqueNames (db : Store) : Prop :=
  ∀ event ∈ db, (event.attendees.map Attendee.name).Nodup

instance (db : Store) : Decidable (UniqueNames db) := by
  unfold UniqueNames
  infer_instance

/-- What `deleteDate` does to the event it hits. -/
def stripDate (date : String) (event : Event) : Event :=
  { event with
    dates := event.dates.filter (fun d => d != date)
    attendees := event.attendees.map (fun attendee =>
      { attendee with dates := attendee.dates.filter (fun d => d.date != date) }) }

/-! ## Reading the attendee view

The loops of `GET /attendees` are read through the list of pushes they
perform: one `(name, element)` pair per attendee of every event, in store
order, each pair being inserted into the array under construction. -/

/-- Effect of one iteration on `ret`: the element is appended to the `events`
of the first entry carrying the name, or a new entry is appended. -/
def pushEntry : List AttendeeEntry → String → AttendeeEvent → List AttendeeEntry
  | [], n, el => [{ name := n, events := [el] }]
  | r :: rs, n, el =>
    if r.name == n then { r with events := r.events ++ [el] } :: rs
    else r :: pushEntry rs n el

/-- Selections of the first attendee of the list carrying the name, as read by
`event.attendees.find(f => f.name === attendee.name).dates`. -/
def firstDates (attendees : List Attendee) (n : String) : List Selection :=
  match attendees.find? (fun f => f.name == n) with
  | some found => found.dates
  | none => []

/-- The pairs pushed while the inner loop runs over one event. -/
def eventPairs (event : Event) : List (String × AttendeeEvent) :=
  event.attendees.map (fun a =>
    (a.name, { id := event.id, name := event.name, dates := firstDates event.attendees a.name }))

/-- All pairs pushed by the two loops, in order. -/
def storePairs (db : Store) : List (String × AttendeeEvent) :=
  db.flatMap eventPairs

/-- Insertion of a list of pairs into `ret`. -/
def pushAll (ret : List AttendeeEntry) (ps : List (String × AttendeeEvent)) :
    List AttendeeEntry :=
  ps.foldl (fun r p => pushEntry r p.1 p.2) ret

/-- The `events` recorded in `ret` under a name (empty when the name has no
entry). -/
def eventsOf (ret : List AttendeeEntry) (n : String) : List AttendeeEvent :=
  match ret.find? (fun f => f.name == n) with
  | some r => r.events
  | none => []

/-- The entry the view is expected to hold for a name, in the words of the
design: one `{id, name, dates}` element for each event that has an attendee
of that name, in store order, with that attendee's stored selections. -/
def participations (db : Store) (n : String) : List AttendeeEvent :=
  db.filterMap (fun event =>
    (event.attendees.find? (fun a => a.name == n)).map (fun a =>
      { id := event.id, name := event.name, dates := a.dates }))

/-- Some event of the collection has an attendee of that name. -/
def Attends (db : Store) (n : String) : Prop :=
  ∃ event ∈ db, ∃ a ∈ event.attendees, a.name = n

instance (db : Store) (n : String) : Decidable (Attends db n) := by
  unfold Attends
  infer_instance

/-! ## Shared lemmas -/

theorem any_contains_iff (stripTime : String → String) (existing dates : List String) :
    dates.any (fun date => existing.contains (stripTime date)) = true ↔
      ∃ d ∈ dates, stripTime d ∈ existing := by
  simp [List.any_eq_true]

theorem find_name_isSome_iff (as : List Attendee) (n : String) :
    (as.find? (fun a => a.name == n)).isSome = true ↔ ∃ a ∈ as, a.name = n := by
  simp

theorem getElem?_set_same {α : Type} (l : List α) (i : Nat) (a b : α) (h : l[i]? = some a) :
    (l.set i b)[i]? = some b := by
  have hi : i < l.length := by
    by_contra hc
    rw [List.getElem?_eq_none (by omega)] at h
    cases h
  simp [List.getElem?_set, hi]

theorem getElem?_set_other {α : Type} (l : List α) (i k : Nat) (b : α) (h : k ≠ i) :
    (l.set i b)[k]? = l[k]? := by
  rw [List.getElem?_set_ne (Ne.symm h)]

/-! ## Adding dates -/

/-- C1: for an existing event `e` at the resolved index, if some supplied date
normalizes to a member of `e.dates` the add_dates handler answers 400 and the
stored collection is untouched; if none does, the handler does not answer 400
and `e`'s date list becomes the old list followed by the normalized supplied
dates in request order. -/
theorem addDates_duplicate_or_append (stripTime : String → String) (db : Store) (elem : Nat)
    (e : Event) (dates : List String) (he : db[elem]? = some e) :
    ((∃ d ∈ dates, stripTime d ∈ e.dates) →
      addDates stripTime db elem dates = some ⟨400, db⟩) ∧
    ((∀ d ∈ dates, stripTime d ∉ e.dates) →
      ∃ r, addDates stripTime db elem dates = some r ∧ r.status ≠ 400 ∧
        r.db = db.set elem { e with dates := e.dates ++ dates.map stripTime } ∧
        (r.db[elem]?).map Event.dates = some (e.dates ++ dates.map stripTime)) := by
  constructor
  · intro h
    have h' := (any_contains_iff stripTime e.dates dates).mpr h
    simp only [addDates, he]
    rw [if_pos h']
  · intro h
    have h' : ¬ (dates.any (fun date => e.dates.contains (stripTime date)) = true) := by
      rw [any_contains_iff]
      rintro ⟨d, hd, hm⟩
      exact h d hd hm
    refine ⟨⟨200, db.set elem { e with dates := e.dates ++ dates.map stripTime }⟩, ?_, ?_, rfl, ?_⟩
    · simp only [addDates, he]
      rw [if_neg h']
    · show (200 : Nat) ≠ 400
      decide
    · rw [getElem?_set_same db elem e _ he]
      rfl

theorem addDates_duplicate_or_append_witness :
    (∃ d ∈ ["2024-01-02"], id d ∈ (Event.mk "e1" "Standup" "alice" none ["2024-01-01", "2024-01-02"] []).dates) ∧
    addDates id [Event.mk "e1" "Standup" "alice" none ["2024-01-01", "2024-01-02"] []] 0
      ["2024-01-02"] =
      some ⟨400, [Event.mk "e1" "Standup" "alice" none ["2024-01-01", "2024-01-02"] []]⟩ :=
  ⟨⟨"2024-01-02", by simp, by simp⟩,
   (addDates_duplicate_or_append id
      [Event.mk "e1" "Standup" "alice" none ["2024-01-01", "2024-01-02"] []] 0
      (Event.mk "e1" "Standup" "alice" none ["2024-01-01", "2024-01-02"] [])
      ["2024-01-02"] rfl).1 ⟨"2024-01-02", by simp, by simp⟩⟩

/-! ## Adding and updating attendees -/

/-- C3: for an existing event `e` and an attendance body `b`, the add-attendee
handler answers 400 exactly when `e` already has an attendee named `b.name`,
and then the stored collection is unchanged; otherwise `e`'s attendee list
grows by exactly one entry, appended at the end, whose name is `b.name`. -/
theorem addAttendee_duplicate_or_append (db : Store) (elem : Nat) (e : Event) (b : Attendee)
    (he : db[elem]? = some e) :
    ∃ r, addAttendee db elem b = some r ∧
      (r.status = 400 ↔ ∃ a ∈ e.attendees, a.name = b.name) ∧
      ((∃ a ∈ e.attendees, a.name = b.name) → r.db = db) ∧
      ((¬ ∃ a ∈ e.attendees, a.name = b.name) →
        ∃ a', a'.name = b.name ∧
          r.db = db.set elem { e with attendees := e.attendees ++ [a'] } ∧
          r.db[elem]? = some { e with attendees := e.attendees ++ [a'] } ∧
          (e.attendees ++ [a']).length = e.attendees.length + 1) := by
  by_cases h : ∃ a ∈ e.attendees, a.name = b.name
  · have h' := (find_name_isSome_iff e.attendees b.name).mpr h
    refine ⟨⟨400, db⟩, ?_, ?_, fun _ => rfl, fun hn => absurd h hn⟩
    · simp only [addAttendee, he, buildAttendee]
      rw [if_pos h']
    · exact ⟨fun _ => h, fun _ => rfl⟩
  · have h' : ¬ ((e.attendees.find? (fun a => a.name == b.name)).isSome = true) := by
      rw [find_name_isSome_iff]
      exact h
    refine ⟨⟨200, db.set elem { e with attendees := e.attendees ++ [buildAttendee e b] }⟩,
      ?_, ?_, fun hp => absurd hp h, fun _ => ⟨buildAttendee e b, rfl, rfl, ?_, by simp⟩⟩
    · simp only [addAttendee, he, buildAttendee]
      rw [if_neg h']
    · constructor
      · intro h4
        have : (200 : Nat) = 400 := h4
        omega
      · intro hp
        exact absurd hp h
    · exact getElem?_set_same db elem e _ he

theorem addAttendee_duplicate_or_append_witness :
    ∃ r, addAttendee [Event.mk "e1" "Standup" "alice" none ["2024-01-01"] [⟨"bob", []⟩]] 0
        ⟨"bob", [⟨"2024-01-01", true⟩]⟩ = some r ∧
      (r.status = 400 ↔ ∃ a ∈ [Attendee.mk "bob" []], a.name = "bob") :=
  (addAttendee_duplicate_or_append
    [Event.mk "e1" "Standup" "alice" none ["2024-01-01"] [⟨"bob", []⟩]] 0
    (Event.mk "e1" "Standup" "alice" none ["2024-01-01"] [⟨"bob", []⟩])
    ⟨"bob", [⟨"2024-01-01", true⟩]⟩ rfl).imp (fun _ h => ⟨h.1, h.2.1⟩)

theorem findIdx?_name_none_iff (as : List Attendee) (n : String) :
    as.findIdx? (fun a => a.name == n) = none ↔ ¬ ∃ a ∈ as, a.name = n := by
  simp

/-- C10: for an existing event `e` and an attendance body `b`, the
update-attendee handler answers 404 exactly when `e` has no attendee named
`b.name`, and then the stored collection is unchanged; otherwise the attendee
at the position of the first entry named `b.name` is replaced by the record
built from `b`, the attendee list keeps its length, and every attendee at
another position, `e`'s date list and every other event are unchanged. -/
theorem updateAttendee_missing_or_replace (db : Store) (elem : Nat) (e : Event) (b : Attendee)
    (he : db[elem]? = some e) :
    ∃ r, updateAttendee db elem b = some r ∧
      (r.status = 404 ↔ ¬ ∃ a ∈ e.attendees, a.name = b.name) ∧
      ((¬ ∃ a ∈ e.attendees, a.name = b.name) → r.db = db) ∧
      ((∃ a ∈ e.attendees, a.name = b.name) →
        ∃ i e', ∃ hi : i < e.attendees.length,
          (e.attendees.get ⟨i, hi⟩).name = b.name ∧
          (∀ j (hj : j < i), (e.attendees.get ⟨j, Nat.lt_trans hj hi⟩).name ≠ b.name) ∧
          r.db[elem]? = some e' ∧
          e'.attendees[i]? = some (buildAttendee e b) ∧
          e'.attendees.length = e.attendees.length ∧
          (∀ j, j ≠ i → e'.attendees[j]? = e.attendees[j]?) ∧
          e'.dates = e.dates ∧ e'.id = e.id ∧ e'.name = e.name ∧
          e'.author = e.author ∧ e'.description = e.description ∧
          r.db.length = db.length ∧
          (∀ k, k ≠ elem → r.db[k]? = db[k]?)) := by
  cases hf : e.attendees.findIdx? (fun a => a.name == b.name) with
  | none =>
    have hn := (findIdx?_name_none_iff e.attendees b.name).mp hf
    refine ⟨⟨404, db⟩, ?_, ⟨fun _ => hn, fun _ => rfl⟩, fun _ => rfl, fun hp => absurd hp hn⟩
    simp only [updateAttendee, he, hf]
  | some i =>
    obtain ⟨hi, hp, hlt⟩ := List.findIdx?_eq_some_iff_getElem.mp hf
    have hex : ∃ a ∈ e.attendees, a.name = b.name :=
      ⟨e.attendees[i], List.getElem_mem _, by simpa using hp⟩
    refine ⟨⟨200, db.set elem { e with attendees := e.attendees.set i (buildAttendee e b) }⟩,
      ?_, ⟨?_, fun hn => absurd hex hn⟩, fun hn => absurd hex hn, fun _ => ?_⟩
    · simp only [updateAttendee, he, hf]
    · intro h4
      have : (200 : Nat) = 404 := h4
      omega
    · refine ⟨i, { e with attendees := e.attendees.set i (buildAttendee e b) }, hi,
        by simpa using hp, ?_, getElem?_set_same db elem e _ he, ?_, by simp, ?_,
        rfl, rfl, rfl, rfl, rfl, by simp, ?_⟩
      · intro j hj
        simpa using hlt j hj
      · simp [List.getElem?_set, hi]
      · intro j hj
        exact getElem?_set_other _ _ _ _ hj
      · intro k hk
        exact getElem?_set_other _ _ _ _ hk

theorem updateAttendee_missing_or_replace_witness :
    ∃ r, updateAttendee [Event.mk "e1" "Standup" "alice" none ["2024-01-01"] [⟨"bob", []⟩]] 0
        ⟨"bob", [⟨"2024-01-01", true⟩]⟩ = some r ∧
      (r.status = 404 ↔ ¬ ∃ a ∈ [Attendee.mk "bob" []], a.name = "bob") :=
  (updateAttendee_missing_or_replace
    [Event.mk "e1" "Standup" "alice" none ["2024-01-01"] [⟨"bob", []⟩]] 0
    (Event.mk "e1" "Standup" "alice" none ["2024-01-01"] [⟨"bob", []⟩])
    ⟨"bob", [⟨"2024-01-01", true⟩]⟩ rfl).imp (fun _ h => ⟨h.1, h.2.1⟩)

theorem find?_append_new (as : List Attendee) (a : Attendee)
    (h : ¬ ∃ x ∈ as, x.name = a.name) :
    (as ++ [a]).find? (fun x => x.name == a.name) = some a := by
  have hnone : as.find? (fun x => x.name == a.name) = none := by
    rw [List.find?_eq_none]
    intro x hx hp
    exact h ⟨x, hx, by simpa using hp⟩
  simp [List.find?_append, hnone]

theorem find?_set_findIdx? (as : List Attendee) (a : Attendee) (i : Nat)
    (h : as.findIdx? (fun x => x.name == a.name) = some i) :
    (as.set i a).find? (fun x => x.name == a.name) = some a := by
  induction as generalizing i with
  | nil => simp at h
  | cons x xs ih =>
    by_cases hx : x.name = a.name
    · have : i = 0 := by simpa [List.findIdx?_cons, hx] using h.symm
      subst this
      simp
    · have hx' : (x.name == a.name) = false := by simpa using hx
      rw [List.findIdx?_cons, hx'] at h
      simp only [Bool.false_eq_true, ↓reduceIte, List.findIdx?_succ, Nat.zero_add,
        Option.map_eq_some'] at h
      obtain ⟨j, hj, rfl⟩ := h
      rw [List.set_cons_succ, List.find?_cons_of_neg _ (by simpa using hx)]
      exact ih j hj

theorem buildAttendee_dates (e : Event) (b : Attendee) :
    buildAttendee e b = ⟨b.name, b.dates.filter (fun s => decide (s.date ∈ e.dates))⟩ := by
  simp [buildAttendee]

theorem addAttendee_status_only_name (db : Store) (elem : Nat) (b : Attendee)
    (ds : List Selection) :
    (addAttendee db elem { b with dates := ds }).map Result.status =
      (addAttendee db elem b).map Result.status := by
  unfold addAttendee
  cases db[elem]? with
  | none => rfl
  | some e =>
    simp only [buildAttendee]
    split <;> rfl

theorem updateAttendee_status_only_name (db : Store) (elem : Nat) (b : Attendee)
    (ds : List Selection) :
    (updateAttendee db elem { b with dates := ds }).map Result.status =
      (updateAttendee db elem b).map Result.status := by
  unfold updateAttendee
  cases db[elem]? with
  | none => rfl
  | some e =>
    simp only
    split <;> rfl

/-- C4: for an existing event `e` and an attendance body `b`, both attend
handlers return, and when add-attendee or update-attendee answers 200 the
attendee record stored under `b.name` has as selections exactly the
sub-sequence of `b.dates` whose `date` is a member of `e`'s date list, in
order; every stored selection references a date of `e`, and the answered
status does not depend on the submitted selections, so a selection for a
foreign date is dropped without making the request fail. -/
theorem attend_keeps_only_event_dates (db : Store) (elem : Nat) (e : Event) (b : Attendee)
    (he : db[elem]? = some e) :
    (∃ r, addAttendee db elem b = some r ∧
      (r.status = 200 → ∃ e', r.db[elem]? = some e' ∧ e'.dates = e.dates ∧
        e'.attendees.find? (fun a => a.name == b.name) =
          some ⟨b.name, b.dates.filter (fun s => decide (s.date ∈ e.dates))⟩)) ∧
    (∃ r, updateAttendee db elem b = some r ∧
      (r.status = 200 → ∃ e', r.db[elem]? = some e' ∧ e'.dates = e.dates ∧
        e'.attendees.find? (fun a => a.name == b.name) =
          some ⟨b.name, b.dates.filter (fun s => decide (s.date ∈ e.dates))⟩)) ∧
    (∀ s ∈ (b.dates.filter (fun s => decide (s.date ∈ e.dates))), s.date ∈ e.dates) ∧
    (∀ ds, (addAttendee db elem { b with dates := ds }).map Result.status =
      (addAttendee db elem b).map Result.status) ∧
    (∀ ds, (updateAttendee db elem { b with dates := ds }).map Result.status =
      (updateAttendee db elem b).map Result.status) := by
  refine ⟨?_, ?_, ?_, addAttendee_status_only_name db elem b,
    updateAttendee_status_only_name db elem b⟩
  · by_cases h : ∃ a ∈ e.attendees, a.name = b.name
    · have h' := (find_name_isSome_iff e.attendees b.name).mpr h
      refine ⟨⟨400, db⟩, ?_, ?_⟩
      · simp only [addAttendee, he, buildAttendee]
        rw [if_pos h']
      · intro h4
        have : (400 : Nat) = 200 := h4
        omega
    · have h' : ¬ ((e.attendees.find? (fun a => a.name == b.name)).isSome = true) := by
        rw [find_name_isSome_iff]
        exact h
      refine ⟨⟨200, db.set elem { e with attendees := e.attendees ++ [buildAttendee e b] }⟩,
        ?_, fun _ => ⟨_, getElem?_set_same db elem e _ he, rfl, ?_⟩⟩
      · simp only [addAttendee, he, buildAttendee]
        rw [if_neg h']
      · rw [← buildAttendee_dates]
        exact find?_append_new e.attendees (buildAttendee e b) h
  · cases hf : e.attendees.findIdx? (fun a => a.name == b.name) with
    | none =>
      refine ⟨⟨404, db⟩, ?_, ?_⟩
      · simp only [updateAttendee, he, hf]
      · intro h4
        have : (404 : Nat) = 200 := h4
        omega
    | some i =>
      refine ⟨⟨200, db.set elem { e with attendees := e.attendees.set i (buildAttendee e b) }⟩,
        ?_, fun _ => ⟨_, getElem?_set_same db elem e _ he, rfl, ?_⟩⟩
      · simp only [updateAttendee, he, hf]
      · rw [← buildAttendee_dates]
        exact find?_set_findIdx? e.attendees (buildAttendee e b) i hf
  · intro s hs
    simpa using (List.mem_filter.mp hs).2

theorem attend_keeps_only_event_dates_witness :
    ∃ r, addAttendee [Event.mk "e1" "Standup" "alice" none ["2024-01-01"] []] 0
        ⟨"bob", [⟨"2024-01-01", true⟩, ⟨"2024-02-02", true⟩]⟩ = some r ∧
      (r.status = 200 → ∃ e', r.db[0]? = some e' ∧ e'.dates = ["2024-01-01"] ∧
        e'.attendees.find? (fun a => a.name == "bob") =
          some ⟨"bob", [⟨"2024-01-01", true⟩, ⟨"2024-02-02", true⟩].filter
            (fun s => decide (s.date ∈ ["2024-01-01"]))⟩) :=
  (attend_keeps_only_event_dates
    [Event.mk "e1" "Standup" "alice" none ["2024-01-01"] []] 0
    (Event.mk "e1" "Standup" "alice" none ["2024-01-01"] [])
    ⟨"bob", [⟨"2024-01-01", true⟩, ⟨"2024-02-02", true⟩]⟩ rfl).1

/-! ## Deleting a date -/

theorem bne_eq_decide_ne (a b : String) : (a != b) = decide (a ≠ b) := by
  by_cases h : a = b <;> simp [h]

theorem modify_eq_set_of_getElem? {α : Type} (f : α → α) (l : List α) (i : Nat) (a : α)
    (h : l[i]? = some a) : l.modify f i = l.set i (f a) := by
  induction l generalizing i with
  | nil => simp at h
  | cons x xs ih =>
    cases i with
    | zero =>
      simp only [List.getElem?_cons_zero, Option.some.injEq] at h
      subst h
      rfl
    | succ j =>
      simp only [List.getElem?_cons_succ] at h
      simp [List.modify_succ_cons, ih j h]

theorem findIdx?_getElem? (db : Store) (_id : String) (i : Nat)
    (h : db.findIdx? (fun event => event.id == _id) = some i) :
    ∃ e, db[i]? = some e ∧ e.id = _id := by
  obtain ⟨hi, hp, _⟩ := List.findIdx?_eq_some_iff_getElem.mp h
  exact ⟨db[i], by simp [hi], by simpa using hp⟩

theorem deleteDate_eq (db : Store) (_id date : String) (i : Nat) (e : Event)
    (hidx : db.findIdx? (fun event => event.id == _id) = some i) (he : db[i]? = some e) :
    deleteDate db _id date = ⟨200, db.set i (stripDate date e)⟩ := by
  simp only [deleteDate, hidx]
  rw [modify_eq_set_of_getElem? _ db i e he]
  rfl

/-- C2: when the path id resolves to the stored event `e` (the first record
with that id, at index `i`), delete-date answers 200 and afterwards the date is
not in `e`'s date list, no attendee of `e` has a selection for it, the other
dates and the other selections of every attendee are kept in order, the
attendee names are the same in the same order, and every other event of the
collection is unchanged. -/
theorem deleteDate_removes_date_everywhere (db : Store) (_id date : String) (i : Nat)
    (e : Event) (hidx : db.findIdx? (fun event => event.id == _id) = some i)
    (he : db[i]? = some e) :
    (deleteDate db _id date).status = 200 ∧
    ∃ e', (deleteDate db _id date).db[i]? = some e' ∧
      date ∉ e'.dates ∧
      (∀ a ∈ e'.attendees, ∀ s ∈ a.dates, s.date ≠ date) ∧
      e'.dates = e.dates.filter (fun d => decide (d ≠ date)) ∧
      e'.attendees.map Attendee.name = e.attendees.map Attendee.name ∧
      e'.attendees.map Attendee.dates =
        e.attendees.map (fun a => a.dates.filter (fun s => decide (s.date ≠ date))) ∧
      e'.id = e.id ∧ e'.name = e.name ∧ e'.author = e.author ∧
      e'.description = e.description ∧
      (deleteDate db _id date).db.length = db.length ∧
      (∀ k, k ≠ i → (deleteDate db _id date).db[k]? = db[k]?) := by
  rw [deleteDate_eq db _id date i e hidx he]
  refine ⟨rfl, stripDate date e, getElem?_set_same db i e _ he, ?_, ?_, ?_, ?_, ?_,
    rfl, rfl, rfl, rfl, by simp, ?_⟩
  · simp [stripDate]
  · intro a ha s hs
    simp only [stripDate, List.mem_map] at ha
    obtain ⟨a0, _, rfl⟩ := ha
    simpa using (List.mem_filter.mp hs).2
  · simp only [stripDate, bne_eq_decide_ne]
  · simp [stripDate]
  · simp only [stripDate, bne_eq_decide_ne, List.map_map]
    rfl
  · intro k hk
    exact getElem?_set_other _ _ _ _ hk

theorem deleteDate_removes_date_everywhere_witness :
    (deleteDate
      [Event.mk "e1" "Standup" "alice" none ["2024-01-01", "2024-01-02"]
        [⟨"bob", [⟨"2024-01-01", true⟩, ⟨"2024-01-02", false⟩]⟩]]
      "e1" "2024-01-01").status = 200 :=
  (deleteDate_removes_date_everywhere
    [Event.mk "e1" "Standup" "alice" none ["2024-01-01", "2024-01-02"]
      [⟨"bob", [⟨"2024-01-01", true⟩, ⟨"2024-01-02", false⟩]⟩]]
    "e1" "2024-01-01" 0
    (Event.mk "e1" "Standup" "alice" none ["2024-01-01", "2024-01-02"]
      [⟨"bob", [⟨"2024-01-01", true⟩, ⟨"2024-01-02", false⟩]⟩])
    (by decide) rfl).1

/-! ## Attendee names stay unique -/

theorem UniqueNames.set {db : Store} (h : UniqueNames db) (i : Nat) (e : Event)
    (he : (e.attendees.map Attendee.name).Nodup) : UniqueNames (db.set i e) := by
  intro ev hev
  rcases List.mem_or_eq_of_mem_set hev with hm | rfl
  · exact h ev hm
  · exact he

theorem UniqueNames.getElem? {db : Store} (h : UniqueNames db) {i : Nat} {e : Event}
    (he : db[i]? = some e) : (e.attendees.map Attendee.name).Nodup :=
  h e (List.getElem?_mem he)

theorem map_name_set_findIdx? (as : List Attendee) (a : Attendee) (i : Nat)
    (h : as.findIdx? (fun x => x.name == a.name) = some i) :
    (as.set i a).map Attendee.name = as.map Attendee.name := by
  obtain ⟨hi, hp, _⟩ := List.findIdx?_eq_some_iff_getElem.mp h
  have hn : as[i].name = a.name := by simpa using hp
  apply List.ext_getElem?
  intro k
  by_cases hk : k = i
  · subst hk
    simp [List.getElem?_set, hi, hn]
  · simp [List.getElem?_set, Ne.symm hk]

theorem addAttendee_uniqueNames (db : Store) (elem : Nat) (b : Attendee)
    (h : UniqueNames db) : UniqueNames (persisted db (addAttendee db elem b)) := by
  unfold addAttendee
  cases he : db[elem]? with
  | none => exact h
  | some e =>
    simp only [buildAttendee]
    split
    · exact h
    · rename_i hnot
      have hnew : ¬ ∃ a ∈ e.attendees, a.name = b.name := by
        rw [← find_name_isSome_iff]
        exact hnot
      apply UniqueNames.set h
      simp only [List.map_append, List.map_cons, List.map_nil]
      rw [List.nodup_append]
      refine ⟨h.getElem? he, List.nodup_singleton _, ?_⟩
      intro n hn hb
      simp only [List.mem_singleton] at hb
      subst hb
      obtain ⟨a, ha, hname⟩ := List.mem_map.mp hn
      exact hnew ⟨a, ha, hname⟩

theorem updateAttendee_uniqueNames (db : Store) (elem : Nat) (b : Attendee)
    (h : UniqueNames db) : UniqueNames (persisted db (updateAttendee db elem b)) := by
  unfold updateAttendee
  cases he : db[elem]? with
  | none => exact h
  | some e =>
    simp only
    cases hf : e.attendees.findIdx? (fun a => a.name == b.name) with
    | none => exact h
    | some i =>
      apply UniqueNames.set h
      have := map_name_set_findIdx? e.attendees (buildAttendee e b) i hf
      simp only at this ⊢
      rw [this]
      exact h.getElem? he

theorem removeAttendee_uniqueNames (db : Store) (elem : Nat) (n : String)
    (h : UniqueNames db) : UniqueNames (removeAttendee db elem n).db := by
  unfold removeAttendee
  cases he : db[elem]? with
  | none => exact h
  | some e =>
    simp only
    split
    · exact h
    · apply UniqueNames.set h
      exact List.Nodup.sublist ((List.filter_sublist _).map _) (h.getElem? he)

theorem deleteDate_uniqueNames (db : Store) (_id date : String)
    (h : UniqueNames db) : UniqueNames (deleteDate db _id date).db := by
  cases hidx : db.findIdx? (fun event => event.id == _id) with
  | none =>
    simp only [deleteDate, hidx]
    exact h
  | some i =>
    obtain ⟨e, he, _⟩ := findIdx?_getElem? db _id i hidx
    rw [deleteDate_eq db _id date i e hidx he]
    apply UniqueNames.set h
    have hn : (stripDate date e).attendees.map Attendee.name = e.attendees.map Attendee.name := by
      simp [stripDate]
    rw [hn]
    exact h.getElem? he

theorem createEvent_uniqueNames (stripTime : String → String) (freshId : String)
    (db : Store) (body : CreateEventBody) (h : UniqueNames db) :
    UniqueNames (createEvent stripTime freshId db body).db := by
  intro ev hev
  rcases List.mem_cons.mp hev with rfl | hm
  · exact List.nodup_nil
  · exact h ev hm

theorem addDates_uniqueNames (stripTime : String → String) (db : Store) (elem : Nat)
    (dates : List String) (h : UniqueNames db) :
    UniqueNames (persisted db (addDates stripTime db elem dates)) := by
  unfold addDates
  cases he : db[elem]? with
  | none => exact h
  | some e =>
    simp only
    split
    · exact h
    · have hn : (e.attendees.map Attendee.name).Nodup := UniqueNames.getElem? h he
      exact UniqueNames.set h _ _ hn

/-- C5: if no event of the collection has two attendees with the same name,
then after add-attendee, update-attendee, remove-attendee or delete-date,
whatever the request and whether it succeeds or fails, still no event of the
persisted collection has two attendees with the same name. -/
theorem uniqueNames_preserved (db : Store) (h : UniqueNames db) :
    (∀ elem b, UniqueNames (persisted db (addAttendee db elem b))) ∧
    (∀ elem b, UniqueNames (persisted db (updateAttendee db elem b))) ∧
    (∀ elem n, UniqueNames (removeAttendee db elem n).db) ∧
    (∀ _id date, UniqueNames (deleteDate db _id date).db) :=
  ⟨fun elem b => addAttendee_uniqueNames db elem b h,
   fun elem b => updateAttendee_uniqueNames db elem b h,
   fun elem n => removeAttendee_uniqueNames db elem n h,
   fun _id date => deleteDate_uniqueNames db _id date h⟩

theorem uniqueNames_preserved_witness :
    UniqueNames [Event.mk "e1" "Standup" "alice" none ["2024-01-01"] [⟨"bob", []⟩]] ∧
    UniqueNames (persisted [Event.mk "e1" "Standup" "alice" none ["2024-01-01"] [⟨"bob", []⟩]]
      (addAttendee [Event.mk "e1" "Standup" "alice" none ["2024-01-01"] [⟨"bob", []⟩]] 0
        ⟨"carol", [⟨"2024-01-01", true⟩]⟩)) :=
  ⟨by simp [UniqueNames],
   (uniqueNames_preserved [Event.mk "e1" "Standup" "alice" none ["2024-01-01"] [⟨"bob", []⟩]]
      (by simp [UniqueNames])).1 0 ⟨"carol", [⟨"2024-01-01", true⟩]⟩⟩

/-! ## Dates of an event and repeated dates in one request -/

/-- C6 (the handler at a failing request): on an event without dates, a body
that lists the same new date twice passes the duplicate check, which only
looks at the dates already stored, and both copies are appended: the handler
answers 200 and the stored date list holds the same date twice, whatever
`stripTime` does. -/
theorem addDates_repeated_date_stored_twice (stripTime : String → String) :
    addDates stripTime [Event.mk "e1" "Standup" "alice" none [] []] 0
        ["2024-01-05", "2024-01-05"] =
      some ⟨200, [Event.mk "e1" "Standup" "alice" none
        [stripTime "2024-01-05", stripTime "2024-01-05"] []]⟩ ∧
    (Event.mk "e1" "Standup" "alice" none [] []).dates.Nodup ∧
    ¬ [stripTime "2024-01-05", stripTime "2024-01-05"].Nodup := by
  refine ⟨?_, List.nodup_nil, by simp⟩
  simp [addDates]

/-! ## Creating and listing -/

/-- C9: after the create handler has run on a body, listing the events returns
the remapped new event first, followed by the remapped events stored before
in their previous order; the new event carries the generated id, the body's
dates normalized by `stripTime`, and no attendee. -/
theorem createEvent_then_list {ρ : Type} (remapData : Event → ρ) (stripTime : String → String)
    (freshId : String) (db : Store) (body : CreateEventBody) :
    (createEvent stripTime freshId db body).status = 200 ∧
    ∃ created : Event,
      listEvents remapData (createEvent stripTime freshId db body).db =
        remapData created :: listEvents remapData db ∧
      created.id = freshId ∧
      created.dates = body.dates.map stripTime ∧
      created.name = body.name ∧ created.author = body.author ∧
      created.description = body.description ∧ created.attendees = [] :=
  ⟨rfl, initEvent stripTime freshId body.name body.author body.description body.dates,
    rfl, rfl, rfl, rfl, rfl, rfl, rfl⟩

/-! ## The attendee view -/

theorem upsert_eq_pushEntry (ret : List AttendeeEntry) (n : String) (el : AttendeeEvent) :
    (match ret.findIdx? (fun f => f.name == n) with
      | none => ret ++ [{ name := n, events := [el] }]
      | some i => ret.modify (fun entry => { entry with events := entry.events ++ [el] }) i)
      = pushEntry ret n el := by
  induction ret with
  | nil => simp [pushEntry]
  | cons x xs ih =>
    by_cases hx : (x.name == n) = true
    · simp [List.findIdx?_cons, hx, pushEntry]
    · simp only [Bool.not_eq_true] at hx
      simp only [List.findIdx?_cons, hx, pushEntry, Bool.false_eq_true, ↓reduceIte,
        List.findIdx?_succ, Nat.zero_add]
      cases hf : xs.findIdx? (fun f => f.name == n) with
      | none =>
        rw [hf] at ih
        simp only [Option.map_none', List.cons_append, List.cons.injEq, true_and]
        exact ih
      | some j =>
        rw [hf] at ih
        simp only [Option.map_some', List.modify_succ_cons, List.cons.injEq, true_and]
        exact ih

theorem viewStep_eq (event : Event) (ret : List AttendeeEntry) (a : Attendee)
    (ha : a ∈ event.attendees) :
    viewStep event ret a =
      some (pushEntry ret a.name
        { id := event.id, name := event.name, dates := firstDates event.attendees a.name }) := by
  have hsome : (event.attendees.find? (fun f => f.name == a.name)).isSome = true := by
    rw [find_name_isSome_iff]
    exact ⟨a, ha, rfl⟩
  obtain ⟨found, hfound⟩ := Option.isSome_iff_exists.mp hsome
  simp only [viewStep, firstDates, hfound]
  rw [← upsert_eq_pushEntry]
  split <;> rfl

theorem foldlM_viewStep (event : Event) (as : List Attendee)
    (hsub : ∀ a ∈ as, a ∈ event.attendees) (ret : List AttendeeEntry) :
    as.foldlM (viewStep event) ret =
      some (pushAll ret (as.map (fun a =>
        (a.name, { id := event.id, name := event.name,
                   dates := firstDates event.attendees a.name })))) := by
  induction as generalizing ret with
  | nil => rfl
  | cons a rest ih =>
    rw [List.foldlM_cons, viewStep_eq event ret a (hsub a (List.mem_cons_self _ _))]
    simp only [Option.bind_eq_bind, Option.some_bind]
    rw [ih (fun x hx => hsub x (List.mem_cons_of_mem _ hx))]
    rfl

theorem pushAll_append (ret : List AttendeeEntry) (ps qs : List (String × AttendeeEvent)) :
    pushAll ret (ps ++ qs) = pushAll (pushAll ret ps) qs := by
  simp [pushAll, List.foldl_append]

theorem foldlM_events (db : Store) (ret : List AttendeeEntry) :
    db.foldlM (fun ret event => event.attendees.foldlM (viewStep event) ret) ret =
      some (pushAll ret (storePairs db)) := by
  induction db generalizing ret with
  | nil => rfl
  | cons ev rest ih =>
    rw [List.foldlM_cons, foldlM_viewStep ev ev.attendees (fun _ h => h) ret]
    simp only [Option.bind_eq_bind, Option.some_bind]
    rw [ih]
    simp only [storePairs, List.flatMap_cons, pushAll_append]
    rfl

/-- The loops never throw: the view is the insertion of all pushed pairs. -/
theorem buildView_eq (db : Store) : buildView db = some (pushAll [] (storePairs db)) :=
  foldlM_events db []

theorem pushEntry_names (ret : List AttendeeEntry) (n : String) (el : AttendeeEvent) :
    (pushEntry ret n el).map AttendeeEntry.name =
      if n ∈ ret.map AttendeeEntry.name then ret.map AttendeeEntry.name
      else ret.map AttendeeEntry.name ++ [n] := by
  induction ret with
  | nil => simp [pushEntry]
  | cons r rs ih =>
    by_cases hr : r.name = n
    · simp [pushEntry, hr]
    · have hr' : ¬ n = r.name := fun h => hr h.symm
      simp only [pushEntry, beq_iff_eq, hr, ↓reduceIte, List.map_cons, ih, List.mem_cons, hr',
        false_or]
      split <;> simp

theorem pushEntry_nodup (ret : List AttendeeEntry) (n : String) (el : AttendeeEvent)
    (h : (ret.map AttendeeEntry.name).Nodup) :
    ((pushEntry ret n el).map AttendeeEntry.name).Nodup := by
  rw [pushEntry_names]
  split
  · exact h
  · rename_i hn
    rw [List.nodup_append]
    refine ⟨h, List.nodup_singleton _, ?_⟩
    intro m hm hm'
    simp only [List.mem_singleton] at hm'
    subst hm'
    exact hn hm

theorem pushEntry_mem_names (ret : List AttendeeEntry) (n m : String) (el : AttendeeEvent) :
    m ∈ (pushEntry ret n el).map AttendeeEntry.name ↔
      m ∈ ret.map AttendeeEntry.name ∨ m = n := by
  rw [pushEntry_names]
  split
  · rename_i hn
    constructor
    · exact Or.inl
    · rintro (h | rfl)
      · exact h
      · exact hn
  · simp

theorem pushAll_nodup (ps : List (String × AttendeeEvent)) (ret : List AttendeeEntry)
    (h : (ret.map AttendeeEntry.name).Nodup) :
    ((pushAll ret ps).map AttendeeEntry.name).Nodup := by
  induction ps generalizing ret with
  | nil => exact h
  | cons p ps ih => exact ih _ (pushEntry_nodup ret p.1 p.2 h)

theorem pushAll_mem_names (ps : List (String × AttendeeEvent)) (ret : List AttendeeEntry)
    (m : String) :
    m ∈ (pushAll ret ps).map AttendeeEntry.name ↔
      m ∈ ret.map AttendeeEntry.name ∨ m ∈ ps.map Prod.fst := by
  induction ps generalizing ret with
  | nil => simp [pushAll]
  | cons p ps ih =>
    have := ih (pushEntry ret p.1 p.2)
    simp only [pushAll, List.foldl_cons] at this ⊢
    rw [this, pushEntry_mem_names]
    simp only [List.map_cons, List.mem_cons]
    tauto

theorem eventsOf_pushEntry (ret : List AttendeeEntry) (n m : String) (el : AttendeeEvent) :
    eventsOf (pushEntry ret n el) m =
      if n = m then eventsOf ret m ++ [el] else eventsOf ret m := by
  induction ret with
  | nil =>
    by_cases hnm : n = m
    · simp [pushEntry, eventsOf, hnm]
    · simp [pushEntry, eventsOf, hnm]
  | cons r rs ih =>
    by_cases hr : r.name = n
    · by_cases hnm : n = m
      · subst hr hnm
        simp [pushEntry, eventsOf]
      · have hrm : ¬ r.name = m := fun h => hnm (hr ▸ h)
        simp [pushEntry, eventsOf, hr, hnm, hrm]
    · by_cases hrm : r.name = m
      · have hnm : ¬ n = m := fun h => hr (by rw [hrm, h])
        have hmn : ¬ m = n := fun h => hnm h.symm
        simp [pushEntry, eventsOf, hnm, hmn, hrm]
      · have ih' := ih
        simp only [eventsOf] at ih'
        simp only [pushEntry, eventsOf, beq_iff_eq, hr, ↓reduceIte, hrm, not_false_eq_true,
          List.find?_cons_of_neg]
        exact ih'

theorem eventsOf_pushAll (ps : List (String × AttendeeEvent)) (ret : List AttendeeEntry)
    (m : String) :
    eventsOf (pushAll ret ps) m =
      eventsOf ret m ++ (ps.filter (fun p => p.1 == m)).map Prod.snd := by
  induction ps generalizing ret with
  | nil => simp [pushAll]
  | cons p ps ih =>
    have := ih (pushEntry ret p.1 p.2)
    simp only [pushAll, List.foldl_cons] at this ⊢
    rw [this, eventsOf_pushEntry]
    by_cases hp : p.1 = m
    · simp [hp, List.filter_cons]
    · simp [hp, List.filter_cons]

theorem find?_of_mem_nodup (ret : List AttendeeEntry) (entry : AttendeeEntry)
    (hmem : entry ∈ ret) (h : (ret.map AttendeeEntry.name).Nodup) :
    ret.find? (fun f => f.name == entry.name) = some entry := by
  induction ret with
  | nil => cases hmem
  | cons r rs ih =>
    simp only [List.map_cons, List.nodup_cons] at h
    rcases List.mem_cons.mp hmem with rfl | hm
    · simp
    · have hne : ¬ r.name = entry.name := by
        intro heq
        exact h.1 (heq ▸ List.mem_map_of_mem _ hm)
      rw [List.find?_cons_of_neg _ (by simpa using hne)]
      exact ih hm h.2

theorem find?_name_eq (ret : List AttendeeEntry) (n : String) (entry : AttendeeEntry)
    (h : ret.find? (fun f => f.name == n) = some entry) : entry.name = n ∧ entry ∈ ret := by
  have h1 := List.find?_some h
  exact ⟨by simpa using h1, List.mem_of_find?_eq_some h⟩

theorem filter_name_eq_find? (as : List Attendee) (n : String)
    (h : (as.map Attendee.name).Nodup) :
    as.filter (fun a => a.name == n) = (as.find? (fun a => a.name == n)).toList := by
  induction as with
  | nil => rfl
  | cons a rest ih =>
    simp only [List.map_cons, List.nodup_cons] at h
    by_cases ha : a.name = n
    · have hnone : rest.filter (fun x => x.name == n) = [] := by
        rw [List.filter_eq_nil_iff]
        intro x hx hxn
        have : x.name = n := by simpa using hxn
        exact h.1 (by rw [ha, ← this]; exact List.mem_map_of_mem _ hx)
      simp [List.filter_cons, ha, hnone]
    · simp [List.filter_cons, ha, ih h.2]

theorem eventPairs_filter (event : Event) (n : String) :
    ((eventPairs event).filter (fun p => p.1 == n)).map Prod.snd =
      (event.attendees.filter (fun a => a.name == n)).map (fun _ =>
        ({ id := event.id, name := event.name,
           dates := firstDates event.attendees n } : AttendeeEvent)) := by
  unfold eventPairs
  generalize event.attendees = as
  generalize hg : firstDates as = g
  clear hg
  induction as with
  | nil => rfl
  | cons a rest ih =>
    by_cases ha : a.name = n
    · simp only [List.map_cons, List.filter_cons, ha, beq_self_eq_true, ↓reduceIte,
        List.cons.injEq, true_and]
      exact ih
    · simp only [List.map_cons, List.filter_cons, beq_iff_eq, ha, ↓reduceIte]
      exact ih

theorem eventPairs_filter_unique (event : Event) (n : String)
    (h : (event.attendees.map Attendee.name).Nodup) :
    ((eventPairs event).filter (fun p => p.1 == n)).map Prod.snd =
      ((event.attendees.find? (fun a => a.name == n)).map (fun a =>
        ({ id := event.id, name := event.name, dates := a.dates } : AttendeeEvent))).toList := by
  rw [eventPairs_filter, filter_name_eq_find? _ _ h]
  cases hf : event.attendees.find? (fun a => a.name == n) with
  | none => rfl
  | some a => simp [firstDates, hf]

theorem storePairs_filter_unique (db : Store) (n : String) (h : UniqueNames db) :
    ((storePairs db).filter (fun p => p.1 == n)).map Prod.snd = participations db n := by
  induction db with
  | nil => rfl
  | cons ev rest ih =>
    have hev := h ev (List.mem_cons_self _ _)
    have hrest : UniqueNames rest := fun e he => h e (List.mem_cons_of_mem _ he)
    simp only [storePairs, List.flatMap_cons, List.filter_append, List.map_append]
    rw [eventPairs_filter_unique ev n hev]
    have ih' := ih hrest
    simp only [storePairs] at ih'
    rw [ih']
    simp only [participations, List.filterMap_cons]
    cases ev.attendees.find? (fun a => a.name == n) <;> rfl

theorem mem_storePairs_names (db : Store) (n : String) :
    n ∈ (storePairs db).map Prod.fst ↔ Attends db n := by
  simp only [storePairs, eventPairs, Attends, List.mem_map, List.mem_flatMap]
  constructor
  · rintro ⟨p, ⟨ev, hev, a, ha, rfl⟩, rfl⟩
    exact ⟨ev, hev, a, ha, rfl⟩
  · rintro ⟨ev, hev, a, ha, rfl⟩
    exact ⟨_, ⟨ev, hev, a, ha, rfl⟩, rfl⟩

theorem view_mem_names (db : Store) (n : String) :
    n ∈ (pushAll [] (storePairs db)).map AttendeeEntry.name ↔ Attends db n := by
  rw [pushAll_mem_names, mem_storePairs_names]
  simp

theorem view_nodup (db : Store) :
    ((pushAll [] (storePairs db)).map AttendeeEntry.name).Nodup :=
  pushAll_nodup _ [] List.nodup_nil

theorem view_entry_events (db : Store) (entry : AttendeeEntry)
    (hmem : entry ∈ pushAll [] (storePairs db)) :
    entry.events = ((storePairs db).filter (fun p => p.1 == entry.name)).map Prod.snd := by
  have h1 := find?_of_mem_nodup _ entry hmem (view_nodup db)
  have h2 := eventsOf_pushAll (storePairs db) [] entry.name
  simp only [eventsOf, h1, List.find?_nil, List.nil_append] at h2
  exact h2

theorem getAttendees_all (db : Store) :
    getAttendees db none = some (.all (pushAll [] (storePairs db))) := by
  simp [getAttendees, buildView_eq]

theorem getAttendees_named (db : Store) (n : String) :
    getAttendees db (some n) =
      match (pushAll [] (storePairs db)).find? (fun f => f.name == n) with
      | none => some .notFound
      | some filteredRet => some (.one filteredRet) := by
  simp only [getAttendees, buildView_eq]

theorem view_find?_isSome (db : Store) (n : String) :
    ((pushAll [] (storePairs db)).find? (fun f => f.name == n)).isSome = true ↔ Attends db n := by
  rw [← view_mem_names]
  simp

/-- C8: the cross-event attendee view without a name returns a list in which
every attendee name occurring in some event appears exactly once and no other
name appears; on a collection that satisfies the data model's invariant that
no event has two attendees of the same name (the invariant every handler
keeps), the entry for a name lists, in store order, one `{id, name, dates}`
element for each event that has an attendee of that name, with that
attendee's stored selections; with a name parameter the handler returns
exactly the entry of that name, and it answers 404 exactly when no event has
an attendee of that name. -/
theorem attendee_view_groups_by_name (db : Store) :
    ∃ ret, getAttendees db none = some (.all ret) ∧
      (ret.map AttendeeEntry.name).Nodup ∧
      (∀ n, n ∈ ret.map AttendeeEntry.name ↔ Attends db n) ∧
      (UniqueNames db → ∀ entry ∈ ret, entry.events = participations db entry.name) ∧
      (∀ n, Attends db n →
        ∃ entry ∈ ret, entry.name = n ∧ getAttendees db (some n) = some (.one entry)) ∧
      (∀ n, (getAttendees db (some n)).map ViewResponse.status = some 404 ↔ ¬ Attends db n) := by
  refine ⟨pushAll [] (storePairs db), getAttendees_all db, view_nodup db, view_mem_names db,
    ?_, ?_, ?_⟩
  · intro hu entry hmem
    rw [view_entry_events db entry hmem, storePairs_filter_unique db entry.name hu]
  · intro n hn
    obtain ⟨entry, hentry⟩ := Option.isSome_iff_exists.mp ((view_find?_isSome db n).mpr hn)
    obtain ⟨hname, hmem⟩ := find?_name_eq _ _ _ hentry
    refine ⟨entry, hmem, hname, ?_⟩
    rw [getAttendees_named, hentry]
  · intro n
    rw [getAttendees_named, ← view_find?_isSome]
    cases (pushAll [] (storePairs db)).find? (fun f => f.name == n) with
    | none => simp [ViewResponse.status]
    | some entry => simp [ViewResponse.status]

theorem attendee_view_groups_by_name_witness :
    UniqueNames [Event.mk "e1" "Standup" "alice" none ["2024-01-01"]
      [⟨"bob", [⟨"2024-01-01", true⟩]⟩]] ∧
    ∃ ret, getAttendees [Event.mk "e1" "Standup" "alice" none ["2024-01-01"]
        [⟨"bob", [⟨"2024-01-01", true⟩]⟩]] none = some (.all ret) ∧
      ∀ entry ∈ ret, entry.events =
        participations [Event.mk "e1" "Standup" "alice" none ["2024-01-01"]
          [⟨"bob", [⟨"2024-01-01", true⟩]⟩]] entry.name :=
  ⟨by simp [UniqueNames],
   (attendee_view_groups_by_name [Event.mk "e1" "Standup" "alice" none ["2024-01-01"]
      [⟨"bob", [⟨"2024-01-01", true⟩]⟩]]).imp
     (fun _ h => ⟨h.1, h.2.2.2.1 (by simp [UniqueNames])⟩)⟩

/-! ## Removing the last date, then reading the view -/

theorem firstDates_eq_nil (as : List Attendee) (n : String) (h : ∀ x ∈ as, x.dates = []) :
    firstDates as n = [] := by
  unfold firstDates
  cases hf : as.find? (fun f => f.name == n) with
  | none => rfl
  | some found => exact h found (List.mem_of_find?_eq_some hf)

theorem mem_storePairs (db : Store) (ev : Event) (a : Attendee) (hev : ev ∈ db)
    (ha : a ∈ ev.attendees) :
    (a.name, ({ id := ev.id, name := ev.name,
                dates := firstDates ev.attendees a.name } : AttendeeEvent)) ∈ storePairs db := by
  simp only [storePairs, eventPairs, List.mem_flatMap, List.mem_map]
  exact ⟨ev, hev, a, ha, rfl⟩

/-- C7 (amended): when the path id resolves to the stored event `e`, `e` has
exactly the one date `d` and every selection of every attendee of `e`
references a date of `e`'s date list, then delete-date of `d` answers 200 and
afterwards the cross-event attendee view contains, for every attendee `a` of
`e`, an entry named `a.name` whose events list includes the element with
`e`'s id and name and an empty `dates` array. -/
theorem deleteDate_last_date_then_view (db : Store) (_id d : String) (i : Nat) (e : Event)
    (hidx : db.findIdx? (fun event => event.id == _id) = some i) (he : db[i]? = some e)
    (hd : e.dates = [d])
    (hsel : ∀ a ∈ e.attendees, ∀ s ∈ a.dates, s.date ∈ e.dates) :
    (deleteDate db _id d).status = 200 ∧
    ∃ ret, getAttendees (deleteDate db _id d).db none = some (.all ret) ∧
      ∀ a ∈ e.attendees, ∃ entry ∈ ret, entry.name = a.name ∧
        ({ id := e.id, name := e.name, dates := [] } : AttendeeEvent) ∈ entry.events := by
  rw [deleteDate_eq db _id d i e hidx he]
  refine ⟨rfl, _, getAttendees_all _, ?_⟩
  intro a ha
  have hmemE : stripDate d e ∈ db.set i (stripDate d e) :=
    List.getElem?_mem (getElem?_set_same db i e _ he)
  have hempty : ∀ x ∈ (stripDate d e).attendees, x.dates = [] := by
    intro x hx
    simp only [stripDate, List.mem_map] at hx
    obtain ⟨a0, ha0, rfl⟩ := hx
    rw [List.filter_eq_nil_iff]
    intro s hs
    have hsd : s.date = d := by
      have := hsel a0 ha0 s hs
      rw [hd] at this
      simpa using this
    simp [hsd]
  have ha' : ({ a with dates := a.dates.filter (fun s => s.date != d) } : Attendee) ∈
      (stripDate d e).attendees := by
    simp only [stripDate, List.mem_map]
    exact ⟨a, ha, rfl⟩
  have hpair := mem_storePairs _ _ _ hmemE ha'
  rw [firstDates_eq_nil _ _ hempty] at hpair
  have hname : a.name ∈ (pushAll [] (storePairs (db.set i (stripDate d e)))).map
      AttendeeEntry.name := by
    rw [pushAll_mem_names]
    exact Or.inr (List.mem_map.mpr ⟨_, hpair, rfl⟩)
  obtain ⟨entry, hentry, hen⟩ := List.mem_map.mp hname
  refine ⟨entry, hentry, hen, ?_⟩
  rw [view_entry_events _ entry hentry, List.mem_map]
  refine ⟨_, List.mem_filter.mpr ⟨hpair, ?_⟩, rfl⟩
  simp [hen]

theorem deleteDate_last_date_then_view_witness :
    ∃ ret, getAttendees (deleteDate
        [Event.mk "e1" "Standup" "alice" none ["2024-01-01"] [⟨"bob", [⟨"2024-01-01", true⟩]⟩]]
        "e1" "2024-01-01").db none = some (.all ret) ∧
      ∀ a ∈ [Attendee.mk "bob" [⟨"2024-01-01", true⟩]], ∃ entry ∈ ret, entry.name = a.name ∧
        ({ id := "e1", name := "Standup", dates := [] } : AttendeeEvent) ∈ entry.events :=
  (deleteDate_last_date_then_view
    [Event.mk "e1" "Standup" "alice" none ["2024-01-01"] [⟨"bob", [⟨"2024-01-01", true⟩]⟩]]
    "e1" "2024-01-01" 0
    (Event.mk "e1" "Standup" "alice" none ["2024-01-01"] [⟨"bob", [⟨"2024-01-01", true⟩]⟩])
    (by decide) rfl rfl (by simp)).2

/-- C7 (counterexample to the unamended claim): an event whose only date is
"2024-01-01" has an attendee "bob" holding a selection for "2024-02-02", a
date no longer in the event's list; after delete-date of "2024-01-01" the view
lists the event under "bob" with that selection still in `dates`, not with an
empty array. -/
theorem deleteDate_last_date_stale_selection_counterexample :
    (deleteDate
      [Event.mk "e1" "Standup" "alice" none ["2024-01-01"] [⟨"bob", [⟨"2024-02-02", true⟩]⟩]]
      "e1" "2024-01-01") =
      ⟨200, [Event.mk "e1" "Standup" "alice" none [] [⟨"bob", [⟨"2024-02-02", true⟩]⟩]]⟩ ∧
    getAttendees (deleteDate
      [Event.mk "e1" "Standup" "alice" none ["2024-01-01"] [⟨"bob", [⟨"2024-02-02", true⟩]⟩]]
      "e1" "2024-01-01").db none =
      some (.all [⟨"bob", [⟨"e1", "Standup", [⟨"2024-02-02", true⟩]⟩]⟩]) ∧
    ¬ ∃ el ∈ ([⟨"e1", "Standup", [⟨"2024-02-02", true⟩]⟩] : List AttendeeEvent),
        el.id = "e1" ∧ el.name = "Standup" ∧ el.dates = [] := by
  refine ⟨by decide, by decide, by decide⟩

end Diddlydoo
